import Mathlib

/-!
Shallow embedding of the wavelet-variance core of `src/src/build_file.cpp`
(QMF filter construction, DWT/MODWT pyramid transforms, brick-wall boundary
trimming, FFT-based autocovariance, eta3 confidence intervals, and the
`wavelet_variance_arma` orchestrator), together with theorems settling the
frozen claims about that code.

Modelling conventions:
* `arma::vec` is `List ℝ`; `arma::field<arma::vec>` is `List (List ℝ)`.
* C++ `double` arithmetic is modelled by exact real arithmetic; the constant
  `0.7071067811865475` in `haar_filter` is modelled as `1 / Real.sqrt 2`.
* `Rcpp::stop(...)` is modelled by `Except.error` with a named error value.
* The external quantile functions `R::qchisq` and `R::qnorm` (invoked but not
  implemented in this repository) are parameters of the definitions that use
  them.
* `arma::fft` / `arma::ifft` are the standard discrete Fourier transform
  `X k = ∑ j, x j · exp (-2πi·j·k/M)` and its `1/M`-normalised inverse.
* `datum::nan` fills (the `compute_v = "no"` branch) are modelled by `none`
  in `List (Option ℝ)`.
-/

namespace GMWM

abbrev Vec := List ℝ

/-- The error conditions of `build_file.cpp`: the four `Rcpp::stop` calls,
plus `outOfBounds` for the `std::logic_error` thrown by Armadillo's bounds
check on `Col::rows(first, last)` (enabled by default in RcppArmadillo and
not disabled by this repository), which `brick_wall` hits when a trim count
reaches a level's length. -/
inductive WvError
  | unsupportedFilter
  | unsupportedBoundary
  | invalidDecomposition
  | unsupportedCIType
  | outOfBounds
  deriving DecidableEq

/-- `reverse_vec` (build_file.cpp:75): reverses a vector. -/
def reverse_vec (x : Vec) : Vec := x.reverse

/-- Loop body of `qmf` (build_file.cpp:99-105): element `i` of the reversed
vector is negated when `(i + !inverse) % 2 != 0`. -/
def qmfAux (inverse : Bool) : ℕ → Vec → Vec
  | _, [] => []
  | i, v :: rest =>
      (if (i + (if inverse then 0 else 1)) % 2 ≠ 0 then -v else v) :: qmfAux inverse (i + 1) rest

/-- `qmf` (build_file.cpp:93-108): reverse the input, then flip signs
according to the parity pattern `(i + !inverse) % 2 != 0`.  In the source the
argument `inverse` defaults to `true`. -/
def qmf (g : Vec) (inverse : Bool) : Vec := qmfAux inverse 0 (reverse_vec g)

/-- A wavelet filter: length `L`, wavelet coefficients `h`, scaling
coefficients `g` (the `field<vec>` of `haar_filter`). -/
structure WaveletFilter where
  L : ℕ
  h : Vec
  g : Vec

/-- `haar_filter` (build_file.cpp:124-139): `L = 2`,
`g = (1/√2, 1/√2)`, `h = qmf g` with the default `inverse = true`. -/
noncomputable def haar_filter : WaveletFilter :=
  { L := 2
    h := qmf [1 / Real.sqrt 2, 1 / Real.sqrt 2] true
    g := [1 / Real.sqrt 2, 1 / Real.sqrt 2] }

/-- `select_filter` (build_file.cpp:157-168): only `"haar"` is supported. -/
noncomputable def select_filter (filter_name : String) : Except WvError WaveletFilter :=
  if filter_name = "haar" then .ok haar_filter else .error .unsupportedFilter

/-- The shared boundary-handling prologue of `dwt_arma` / `modwt_arma`
(build_file.cpp:194-203 and 285-294): `"periodic"` leaves the signal alone,
`"reflection"` appends the reversed signal, anything else stops. -/
def boundary_handle (x : Vec) (boundary : String) : Except WvError Vec :=
  if boundary = "periodic" then .ok x
  else if boundary = "reflection" then .ok (x ++ reverse_vec x)
  else .error .unsupportedBoundary

/-- Vector indexing `x(u)` with an `int` index (in the source the index is
always kept in range by the wrap-around logic). -/
def idx (x : Vec) (u : ℤ) : ℝ := x.getD u.toNat 0

/-- Inner accumulation loop of `dwt_arma` (build_file.cpp:238-248):
`W = h(0)*x(u)`, then for each next coefficient decrement `u`, wrapping
`u < 0` to `M - 1`, and accumulate. -/
def dwt_convAux (x : Vec) (M : ℕ) : List ℝ → ℤ → ℝ
  | [], _ => 0
  | c :: rest, u =>
      c * idx x u + dwt_convAux x M rest (if u - 1 < 0 then (M : ℤ) - 1 else u - 1)

/-- Level loop of `dwt_arma` (build_file.cpp:226-256), with `j` the 0-based
level index (`j_source - 1`) and `r` the number of levels still to produce:
`M = N / 2^j`, each output index `t < M/2` starts its accumulation at
`u = 2t + 1`, the wavelet output is stored and the scaling output feeds the
next level. -/
def dwt_levelsAux (h g : Vec) (N : ℕ) : ℕ → ℕ → Vec → List Vec
  | _, 0, _ => []
  | j, r + 1, x =>
      ((List.range (N / 2 ^ j / 2)).map fun t : ℕ =>
          dwt_convAux x (N / 2 ^ j) h (2 * (t : ℤ) + 1)) ::
        dwt_levelsAux h g N (j + 1) r
          ((List.range (N / 2 ^ j / 2)).map fun t : ℕ =>
            dwt_convAux x (N / 2 ^ j) g (2 * (t : ℤ) + 1))

/-- `dwt_arma` (build_file.cpp:192-259).  In the source the arguments default
to `filter_name = "haar"`, `nlevels = 4`, `boundary = "periodic"`.  After
boundary handling, with `N` the (possibly doubled) length and `tau = 2^J`,
the transform stops when `N/tau` is not an integer or when `tau > N`. -/
noncomputable def dwt_arma (x : Vec) (filter_name : String) (nlevels : ℕ)
    (boundary : String) : Except WvError (List Vec) :=
  match boundary_handle x boundary with
  | .error e => .error e
  | .ok xb =>
      if ¬ (2 ^ nlevels ∣ xb.length) then .error .invalidDecomposition
      else if 2 ^ nlevels > xb.length then .error .invalidDecomposition
      else
        match select_filter filter_name with
        | .error e => .error e
        | .ok fi => .ok (dwt_levelsAux fi.h fi.g xb.length 0 nlevels xb)

/-- Inner accumulation loop of `modwt_arma` (build_file.cpp:326-336):
`W = ht(0)*x(k)`, then for each next coefficient decrement `k` by
`2^(j-1)`, adding `N` once when the result is negative, and accumulate. -/
def modwt_convAux (x : Vec) (N : ℕ) (step : ℤ) : List ℝ → ℤ → ℝ
  | [], _ => 0
  | c :: rest, k =>
      c * idx x k + modwt_convAux x N step rest (if k - step < 0 then k - step + N else k - step)

/-- Level loop of `modwt_arma` (build_file.cpp:321-344), with `j` the 0-based
level index: every output index `t < N` starts at `k = t` with step
`2^j` (`pow(2, j_source - 1)` in the source). -/
def modwt_levelsAux (ht gt : Vec) (N : ℕ) : ℕ → ℕ → Vec → List Vec
  | _, 0, _ => []
  | j, r + 1, x =>
      ((List.range N).map fun t : ℕ => modwt_convAux x N (2 ^ j) ht (t : ℤ)) ::
        modwt_levelsAux ht gt N (j + 1) r
          ((List.range N).map fun t : ℕ => modwt_convAux x N (2 ^ j) gt (t : ℤ))

/-- `modwt_arma` (build_file.cpp:283-347).  Source defaults:
`filter_name = "haar"`, `nlevels = 4`, `boundary = "periodic"`.  The only
size check is `2^J > N`; the filter pair is rescaled by `1/√2`. -/
noncomputable def modwt_arma (x : Vec) (filter_name : String) (nlevels : ℕ)
    (boundary : String) : Except WvError (List Vec) :=
  match boundary_handle x boundary with
  | .error e => .error e
  | .ok xb =>
      if 2 ^ nlevels > xb.length then .error .invalidDecomposition
      else
        match select_filter filter_name with
        | .error e => .error e
        | .ok fi =>
            .ok (modwt_levelsAux (fi.h.map fun c => c / Real.sqrt 2)
              (fi.g.map fun c => c / Real.sqrt 2) xb.length 0 nlevels xb)

/-- Ceiling division on naturals, used to express
`ceil((m - 2) * (1 - 1/2^(j+1)))` exactly. -/
def ceilDivNat (a b : ℕ) : ℕ := (a + b - 1) / b

/-- The brick-wall trim count for 0-based level `j` and filter length `m`
(build_file.cpp:421-427): the MODWT count `(2^(j+1) - 1)(m - 1)` unless the
method is exactly `"dwt"`, in which case `ceil((m-2)(1 - 1/2^(j+1)))`. -/
def bwCount (m : ℕ) (method : String) (j : ℕ) : ℕ :=
  if method = "dwt" then ceilDivNat ((m - 2) * (2 ^ (j + 1) - 1)) (2 ^ (j + 1))
  else (2 ^ (j + 1) - 1) * (m - 1)

/-- Loop of `brick_wall` (build_file.cpp:419-432), `j` the 0-based level
index: each level computes `n = std::min(count, temp_size)` and keeps
`temp.rows(n, temp_size - 1)`.  Armadillo's bounds check on
`rows(first, last)` throws when `first > last` or `last ≥ n_rows`; with
`first = n` and `last = temp_size - 1` (an unsigned subtraction that wraps
when `temp_size = 0`) this fires exactly when `temp_size ≤ count`, so such a
level raises the bounds error instead of becoming empty; otherwise the
subview keeps the rows from `n` on, i.e. drops the first `n` elements. -/
def brick_wallAux (m : ℕ) (method : String) : ℕ → List Vec → Except WvError (List Vec)
  | _, [] => .ok []
  | j, l :: rest =>
      if l.length ≤ bwCount m method j then .error .outOfBounds
      else
        match brick_wallAux m method (j + 1) rest with
        | .error e => .error e
        | .ok rest2 => .ok (l.drop (min (bwCount m method j) l.length) :: rest2)

/-- `brick_wall` (build_file.cpp:415-435).  Source default:
`method = "modwt"`. -/
def brick_wall (x : List Vec) (wave_filter : WaveletFilter) (method : String) :
    Except WvError (List Vec) :=
  brick_wallAux wave_filter.L method 0 x

/-- `exp (2πi · z / M)`, the root-of-unity kernel underlying `arma::fft`
and `arma::ifft`. -/
noncomputable def cexp2pi (M : ℕ) (z : ℂ) : ℂ :=
  Complex.exp (2 * Real.pi * Complex.I * z / M)

/-- Entry `k` of `arma::fft` applied to a real vector of length `M`:
`X k = ∑ j < M, x j · exp (-2πi·j·k/M)`. -/
noncomputable def fftEntry (x : Vec) (k : ℕ) : ℂ :=
  ∑ j ∈ Finset.range x.length, ((x.getD j 0 : ℝ) : ℂ) * cexp2pi x.length (-((j : ℂ) * k))

/-- `arma::fft` on a real vector. -/
noncomputable def fft_arma (x : Vec) : List ℂ :=
  (List.range x.length).map fun k => fftEntry x k

/-- `arma::ifft`: the `1/M`-normalised inverse transform. -/
noncomputable def ifft_arma (X : List ℂ) : List ℂ :=
  (List.range X.length).map fun j : ℕ =>
    (X.length : ℂ)⁻¹ * ∑ k ∈ Finset.range X.length, X.getD k 0 * cexp2pi X.length ((j : ℂ) * k)

/-- `dft_acf` (build_file.cpp:389-402): zero-pad to `2n`, forward transform,
squared modulus (`pow(real(ff),2) + pow(imag(ff),2)`), inverse transform,
real part divided by `n`, and keep rows `0 .. n-1`. -/
noncomputable def dft_acf (x : Vec) : Vec :=
  let n := x.length
  let xp := x ++ List.replicate n 0
  let ff := fft_arma xp
  let iff := ff.map fun z => ((z.re ^ 2 + z.im ^ 2 : ℝ) : ℂ)
  let out := (ifft_arma iff).map fun z => z.re / (n : ℝ)
  out.take n

/-- `arma::dot` of two real vectors. -/
def dot (a b : Vec) : ℝ := ((a.zip b).map fun c => c.1 * c.2).sum

/-- `ci_eta3` (build_file.cpp:454-469), with the external `R::qchisq`
(lower-tail quantile of the chi-squared distribution) passed as a parameter.
Row `i` is `(y i, eta3 · y i / qchisq (1-p) eta3, eta3 · y i / qchisq p eta3)`
with `eta3 = max (dims i / 2^(i+1)) 1`. -/
noncomputable def ci_eta3 (qchisq : ℝ → ℝ → ℝ) (y dims : Vec) (p : ℝ) : List (ℝ × ℝ × ℝ) :=
  (List.range dims.length).map fun i =>
    (y.getD i 0,
      max (dims.getD i 0 / 2 ^ (i + 1)) 1 * y.getD i 0 /
        qchisq (1 - p) (max (dims.getD i 0 / 2 ^ (i + 1)) 1),
      max (dims.getD i 0 / 2 ^ (i + 1)) 1 * y.getD i 0 /
        qchisq p (max (dims.getD i 0 / 2 ^ (i + 1)) 1))

/-- `wave_variance` (build_file.cpp:488-509): `dims i` is the `i`-th level's
length, `y i = dot(level, level) / dims i` with no zero-length check, and any
type other than `"eta3"` stops. -/
noncomputable def wave_variance (qchisq : ℝ → ℝ → ℝ) (x : List Vec) (type : String)
    (p : ℝ) : Except WvError (List (ℝ × ℝ × ℝ)) :=
  let dims : Vec := x.map fun l => (l.length : ℝ)
  let y : Vec := x.map fun l => dot l l / (l.length : ℝ)
  if type = "eta3" then .ok (ci_eta3 qchisq y dims p) else .error .unsupportedCIType

/-- `arma::diagmat` of a vector, as a row-major list of rows. -/
def diagm (d : Vec) : List (List ℝ) :=
  (List.range d.length).map fun i => (List.range d.length).map fun j =>
    if i = j then d.getD i 0 else 0

/-- `arma::diagvec`: the diagonal of a row-major matrix. -/
def diagvec (V : List (List ℝ)) : Vec :=
  (List.range V.length).map fun i => (V.getD i []).getD i 0

/-- The `Rcpp::List` returned by `wavelet_variance_arma`.  The Gaussian bound
vectors hold `Option ℝ`, `none` standing for the `datum::nan` fill. -/
structure WavVar where
  variance : Vec
  low : Vec
  high : Vec
  scales : Vec
  V : List (List ℝ)
  up_gauss : List (Option ℝ)
  dw_gauss : List (Option ℝ)

/-- `wavelet_variance_arma` (build_file.cpp:533-606), with the external
quantile functions `R::qchisq` and `R::qnorm` as parameters.  Source
defaults: `strWavelet = "haar"`, `compute_v = "no"`.  Uses `p = 0.025`,
`nb_level = floor(log2 n_ts)`, the MODWT with periodic boundary, the
default (`"modwt"`) brick wall, and the `"eta3"` variance. -/
noncomputable def wavelet_variance_arma (qchisq : ℝ → ℝ → ℝ) (qnorm : ℝ → ℝ)
    (signal : Vec) (strWavelet : String) (compute_v : String) : Except WvError WavVar :=
  let p : ℝ := 0.025
  let nb_level := Nat.log2 signal.length
  match modwt_arma signal strWavelet nb_level "periodic" with
  | .error e => .error e
  | .ok signal_modwt =>
      match select_filter strWavelet with
      | .error e => .error e
      | .ok fi =>
          match brick_wall signal_modwt fi "modwt" with
          | .error e => .error e
          | .ok signal_modwt_bw =>
          match wave_variance qchisq signal_modwt_bw "eta3" p with
          | .error e => .error e
          | .ok vmod =>
              let scales : Vec := (List.range nb_level).map fun i => (2 : ℝ) ^ (i + 1)
              if compute_v = "full" ∨ compute_v = "diag" then
                let V :=
                  if compute_v = "diag" then
                    let Aj : Vec := signal_modwt.map fun w =>
                      dot (dft_acf w) (dft_acf w) -
                        (dft_acf w).getD 0 0 * (dft_acf w).getD 0 0 / 2
                    diagm (Aj.map fun a => 2 * a / ((signal_modwt.getD 0 []).length : ℝ))
                  else diagm (List.replicate nb_level 1)
                .ok { variance := vmod.map fun c => c.1
                      low := vmod.map fun c => c.2.1
                      high := vmod.map fun c => c.2.2
                      scales := scales
                      V := V
                      up_gauss := (List.range nb_level).map fun i =>
                        some ((vmod.getD i (0, 0, 0)).1 +
                          qnorm (1 - p) * Real.sqrt ((diagvec V).getD i 0))
                      dw_gauss := (List.range nb_level).map fun i =>
                        some ((vmod.getD i (0, 0, 0)).1 -
                          qnorm (1 - p) * Real.sqrt ((diagvec V).getD i 0)) }
              else
                .ok { variance := vmod.map fun c => c.1
                      low := vmod.map fun c => c.2.1
                      high := vmod.map fun c => c.2.2
                      scales := scales
                      V := diagm (List.replicate nb_level 1)
                      up_gauss := List.replicate nb_level none
                      dw_gauss := List.replicate nb_level none }

/-- `true` exactly on non-error results. -/
def isOk {ε α : Type} : Except ε α → Bool
  | .ok _ => true
  | .error _ => false

/-- The wavelet-variance row `i` of a `wave_variance` result
(`(0,0,0)` on the error side, which no theorem relies on). -/
def cellOf (r : Except WvError (List (ℝ × ℝ × ℝ))) (i : ℕ) : ℝ × ℝ × ℝ :=
  match r with
  | .ok l => l.getD i (0, 0, 0)
  | .error _ => (0, 0, 0)

/-- Column 0 (the variance) of row `i`. -/
def varOf (r : Except WvError (List (ℝ × ℝ × ℝ))) (i : ℕ) : ℝ := (cellOf r i).1

/-- Column 1 (the lower confidence bound) of row `i`. -/
def lowOf (r : Except WvError (List (ℝ × ℝ × ℝ))) (i : ℕ) : ℝ := (cellOf r i).2.1

/-- Column 2 (the upper confidence bound) of row `i`. -/
def highOf (r : Except WvError (List (ℝ × ℝ × ℝ))) (i : ℕ) : ℝ := (cellOf r i).2.2

/-- Constant quantile function used to exhibit concrete counterexample and
witness values for the estimator. -/
def constQ : ℝ → ℝ → ℝ := fun _ _ => 1

lemma cellOf_ok (l : List (ℝ × ℝ × ℝ)) (i : ℕ) : cellOf (.ok l) i = l.getD i (0, 0, 0) := rfl

lemma isOk_ok {ε α : Type} (a : α) : isOk (ε := ε) (.ok a) = true := rfl

/-! ### Generic list helpers -/

lemma getD_range_map {β : Type} (f : ℕ → β) (M k : ℕ) (d : β) (h : k < M) :
    ((List.range M).map f).getD k d = f k := by
  rw [List.getD_eq_getElem?_getD, List.getElem?_map, List.getElem?_range h]
  rfl

lemma getD_map_of_lt {α β : Type} (f : α → β) (l : List α) (i : ℕ) (h : i < l.length)
    (d : β) (d' : α) : (l.map f).getD i d = f (l.getD i d') := by
  rw [List.getD_eq_getElem?_getD, List.getElem?_map, List.getElem?_eq_getElem h,
    List.getD_eq_getElem?_getD, List.getElem?_eq_getElem h]
  rfl

lemma getD_replicate_of_lt {α : Type} (n i : ℕ) (a d : α) (h : i < n) :
    (List.replicate n a).getD i d = a := by
  rw [List.getD_eq_getElem?_getD, List.getElem?_replicate]
  simp [h]

/-! ### QMF lemmas -/

lemma qmfAux_length (inv : Bool) : ∀ (s : ℕ) (l : Vec), (qmfAux inv s l).length = l.length
  | _, [] => rfl
  | s, _ :: rest => by simp [qmfAux, qmfAux_length inv (s + 1) rest]

lemma qmfAux_getD (inv : Bool) : ∀ (s : ℕ) (l : Vec) (i : ℕ), i < l.length →
    (qmfAux inv s l).getD i 0 =
      if (s + i + (if inv then 0 else 1)) % 2 ≠ 0 then -(l.getD i 0) else l.getD i 0
  | _, [], i, h => by simp at h
  | s, v :: rest, 0, _ => by simp [qmfAux]
  | s, v :: rest, i + 1, h => by
      have hi : i < rest.length := by simpa using Nat.lt_of_succ_lt_succ h
      simp only [qmfAux, List.getD_cons_succ]
      rw [qmfAux_getD inv (s + 1) rest i hi]
      have : s + 1 + i = s + (i + 1) := by omega
      rw [this]

/-! ### brick_wall lemmas -/

lemma brick_wallAux_ok_length (m : ℕ) (method : String) : ∀ (j : ℕ) (x t : List Vec),
    brick_wallAux m method j x = .ok t → t.length = x.length
  | _, [], t, ht => by
      simp only [brick_wallAux, Except.ok.injEq] at ht
      rw [← ht]
  | j, l :: rest, t, ht => by
      simp only [brick_wallAux] at ht
      by_cases hl : l.length ≤ bwCount m method j
      · rw [if_pos hl] at ht
        exact absurd ht (by simp)
      · rw [if_neg hl] at ht
        cases hrec : brick_wallAux m method (j + 1) rest with
        | error e => rw [hrec] at ht; exact absurd ht (by simp)
        | ok t2 =>
            rw [hrec] at ht
            simp only [Except.ok.injEq] at ht
            rw [← ht, List.length_cons, List.length_cons,
              brick_wallAux_ok_length m method (j + 1) rest t2 hrec]

lemma brick_wallAux_ok_getD (m : ℕ) (method : String) : ∀ (j : ℕ) (x t : List Vec) (i : ℕ),
    brick_wallAux m method j x = .ok t → i < x.length →
    t.getD i [] = (x.getD i []).drop (min (bwCount m method (j + i)) (x.getD i []).length)
  | _, [], _, i, _, h => by simp at h
  | j, l :: rest, t, i, ht, h => by
      simp only [brick_wallAux] at ht
      by_cases hl : l.length ≤ bwCount m method j
      · rw [if_pos hl] at ht
        exact absurd ht (by simp)
      · rw [if_neg hl] at ht
        cases hrec : brick_wallAux m method (j + 1) rest with
        | error e => rw [hrec] at ht; exact absurd ht (by simp)
        | ok t2 =>
            rw [hrec] at ht
            simp only [Except.ok.injEq] at ht
            rw [← ht]
            cases i with
            | zero => simp
            | succ i =>
                have hi : i < rest.length := by simpa using Nat.lt_of_succ_lt_succ h
                simp only [List.getD_cons_succ]
                rw [brick_wallAux_ok_getD m method (j + 1) rest t2 i hrec hi]
                have : j + 1 + i = j + (i + 1) := by omega
                rw [this]

lemma brick_wallAux_error (m : ℕ) (method : String) : ∀ (j : ℕ) (x : List Vec) (i : ℕ),
    i < x.length → (x.getD i []).length ≤ bwCount m method (j + i) →
    brick_wallAux m method j x = .error .outOfBounds
  | _, [], i, hi, _ => by simp at hi
  | j, l :: rest, 0, _, hle => by
      simp only [List.getD_cons_zero, Nat.add_zero] at hle
      simp only [brick_wallAux]
      rw [if_pos hle]
  | j, l :: rest, i + 1, hi, hle => by
      simp only [brick_wallAux]
      by_cases hl : l.length ≤ bwCount m method j
      · rw [if_pos hl]
      · rw [if_neg hl]
        have hi' : i < rest.length := by simpa using Nat.lt_of_succ_lt_succ hi
        have hle' : (rest.getD i []).length ≤ bwCount m method (j + 1 + i) := by
          have : j + 1 + i = j + (i + 1) := by omega
          rw [this]
          simpa using hle
        rw [brick_wallAux_error m method (j + 1) rest i hi' hle']

lemma brick_wallAux_isOk (m : ℕ) (method : String) : ∀ (j : ℕ) (x : List Vec),
    (∀ i, i < x.length → bwCount m method (j + i) < (x.getD i []).length) →
    ∃ t, brick_wallAux m method j x = .ok t
  | _, [], _ => ⟨[], rfl⟩
  | j, l :: rest, hall => by
      have h0 : bwCount m method j < l.length := by
        have := hall 0 (by simp)
        simpa using this
      obtain ⟨t2, ht2⟩ := brick_wallAux_isOk m method (j + 1) rest (by
        intro i hi
        have := hall (i + 1) (by simpa using Nat.succ_lt_succ hi)
        have hadd : j + (i + 1) = j + 1 + i := by omega
        rw [hadd] at this
        simpa using this)
      refine ⟨l.drop (min (bwCount m method j) l.length) :: t2, ?_⟩
      simp only [brick_wallAux]
      rw [if_neg (not_le_of_lt h0), ht2]

lemma bwCount_of_ne_dwt (m : ℕ) (method : String) (h : method ≠ "dwt") (j : ℕ) :
    bwCount m method j = (2 ^ (j + 1) - 1) * (m - 1) := by
  simp [bwCount, h]

lemma brick_wallAux_of_ne_dwt (m : ℕ) (method : String) (h : method ≠ "dwt") :
    ∀ (j : ℕ) (x : List Vec), brick_wallAux m method j x = brick_wallAux m "modwt" j x
  | _, [] => rfl
  | j, l :: rest => by
      simp only [brick_wallAux, brick_wallAux_of_ne_dwt m method h (j + 1) rest,
        bwCount_of_ne_dwt m method h, bwCount_of_ne_dwt m "modwt" (by decide)]

/-- Nat ceiling division agrees with the real ceiling of the fraction. -/
lemma ceilDivNat_eq_ceil (c B : ℕ) (hB : 0 < B) :
    (ceilDivNat c B : ℤ) = ⌈(c : ℝ) / (B : ℝ)⌉ := by
  have hBR : (0 : ℝ) < B := by exact_mod_cast hB
  have hn : ceilDivNat c B = c ⌈/⌉ B := (Nat.ceilDiv_eq_add_pred_div c B).symm
  rw [hn, eq_comm, Int.ceil_eq_iff]
  constructor
  · rcases Nat.eq_zero_or_pos (c ⌈/⌉ B) with h0 | hpos
    · rw [h0]
      push_cast
      have : (0 : ℝ) ≤ (c : ℝ) / B := by positivity
      linarith
    · have hlt : B * (c ⌈/⌉ B - 1) < c := by
        by_contra hcon
        push_neg at hcon
        have := (ceilDiv_le_iff_le_mul hB).mpr hcon
        omega
      have hcast : ((c ⌈/⌉ B - 1 : ℕ) : ℝ) = ((c ⌈/⌉ B : ℕ) : ℝ) - 1 := by
        rw [Nat.cast_sub hpos]
        simp
      have : ((c ⌈/⌉ B : ℕ) : ℝ) - 1 < (c : ℝ) / B := by
        rw [lt_div_iff₀ hBR, ← hcast]
        calc ((c ⌈/⌉ B - 1 : ℕ) : ℝ) * B = ((B * (c ⌈/⌉ B - 1) : ℕ) : ℝ) := by push_cast; ring
          _ < c := by exact_mod_cast hlt
      exact_mod_cast this
  · have hc : c ≤ B * (c ⌈/⌉ B) := le_smul_ceilDiv hB
    rw [div_le_iff₀ hBR]
    calc (c : ℝ) ≤ ((B * (c ⌈/⌉ B) : ℕ) : ℝ) := by exact_mod_cast hc
      _ = ((c ⌈/⌉ B : ℕ) : ℝ) * B := by push_cast; ring

/-! ### Claim C2: brick_wall trims min(count, length) elements from the front -/

/-- C2 counterexample: the claim asserts that a computed trim count equal to
the level's length empties the level and never errors; on `[[1]]` with the
Haar filter the MODWT count at level 0 is `1 ≥ 1`, and `brick_wall` raises
the Armadillo bounds error (`temp.rows(1, 0)` with `first > last`) instead
of returning an ok decomposition with an empty level. -/
theorem c2_counterexample :
    brick_wall [[(1 : ℝ)]] haar_filter "modwt" = .error .outOfBounds ∧
    isOk (brick_wall [[(1 : ℝ)]] haar_filter "modwt") = false :=
  ⟨rfl, rfl⟩

/-- C2 (corrected): `brick_wall` applies the stated trim counts — MODWT
`(2^(j+1) - 1)(m - 1)`, DWT `ceil((m - 2)(1 - 2^-(j+1)))` — and on success
returns a decomposition with the same level count in which level `j`
(0-based) loses its first `min(count_j, level_length)` elements; it succeeds
when every level's count is strictly below that level's length, but a count
that equals or exceeds some level's length raises the Armadillo bounds
error instead of emptying that level. -/
theorem c2_brick_wall (x : List Vec) (f : WaveletFilter) (j : ℕ)
    (hm : 1 ≤ f.L) (hj : j < x.length) :
    (∀ t, brick_wall x f "modwt" = .ok t → t.length = x.length ∧
      t.getD j [] =
        (x.getD j []).drop (min ((2 ^ (j + 1) - 1) * (f.L - 1)) (x.getD j []).length)) ∧
    (∀ t, brick_wall x f "dwt" = .ok t → t.length = x.length ∧
      t.getD j [] =
        (x.getD j []).drop (min (bwCount f.L "dwt" j) (x.getD j []).length)) ∧
    (2 ≤ f.L →
      (bwCount f.L "dwt" j : ℤ) = ⌈((f.L : ℝ) - 2) * (1 - 1 / 2 ^ (j + 1))⌉) ∧
    ((∀ i, i < x.length → bwCount f.L "modwt" i < (x.getD i []).length) →
      isOk (brick_wall x f "modwt") = true) ∧
    ((x.getD j []).length ≤ (2 ^ (j + 1) - 1) * (f.L - 1) →
      brick_wall x f "modwt" = .error .outOfBounds) ∧
    ((x.getD j []).length ≤ bwCount f.L "dwt" j →
      brick_wall x f "dwt" = .error .outOfBounds) := by
  have hmodwt_count : bwCount f.L "modwt" j = (2 ^ (j + 1) - 1) * (f.L - 1) :=
    bwCount_of_ne_dwt f.L "modwt" (by decide) j
  refine ⟨?_, ?_, ?_, ?_, ?_, ?_⟩
  · intro t ht
    refine ⟨brick_wallAux_ok_length f.L "modwt" 0 x t ht, ?_⟩
    have hg := brick_wallAux_ok_getD f.L "modwt" 0 x t j ht hj
    rw [Nat.zero_add, hmodwt_count] at hg
    exact hg
  · intro t ht
    refine ⟨brick_wallAux_ok_length f.L "dwt" 0 x t ht, ?_⟩
    have hg := brick_wallAux_ok_getD f.L "dwt" 0 x t j ht hj
    rw [Nat.zero_add] at hg
    exact hg
  · intro h2
    have hB : (0 : ℕ) < 2 ^ (j + 1) := Nat.pos_pow_of_pos _ (by norm_num)
    have : bwCount f.L "dwt" j = ceilDivNat ((f.L - 2) * (2 ^ (j + 1) - 1)) (2 ^ (j + 1)) := by
      simp [bwCount]
    rw [this, ceilDivNat_eq_ceil _ _ hB]
    congr 1
    have hBR : (0 : ℝ) < (2 : ℝ) ^ (j + 1) := by positivity
    have hB1 : (1 : ℕ) ≤ 2 ^ (j + 1) := Nat.one_le_two_pow
    push_cast [Nat.cast_sub h2, Nat.cast_sub hB1]
    field_simp
  · intro hall
    obtain ⟨t, ht⟩ := brick_wallAux_isOk f.L "modwt" 0 x (by
      intro i hi
      rw [Nat.zero_add]
      exact hall i hi)
    rw [brick_wall, ht]
    rfl
  · intro hle
    exact brick_wallAux_error f.L "modwt" 0 x j hj
      (by rw [Nat.zero_add, hmodwt_count]; exact hle)
  · intro hle
    exact brick_wallAux_error f.L "dwt" 0 x j hj (by rw [Nat.zero_add]; exact hle)

/-- C2 witness: a concrete three-element level with the Haar filter, where
the MODWT trim count 1 stays below the level length 3. -/
theorem c2_brick_wall_witness :
    (1 ≤ haar_filter.L ∧ 0 < ([[1, 2, 3]] : List Vec).length) ∧
    ((∀ t, brick_wall [[1, 2, 3]] haar_filter "modwt" = .ok t →
      t.length = ([[1, 2, 3]] : List Vec).length ∧
      t.getD 0 [] = (([[1, 2, 3]] : List Vec).getD 0 []).drop
        (min ((2 ^ (0 + 1) - 1) * (haar_filter.L - 1))
          (([[1, 2, 3]] : List Vec).getD 0 []).length)) ∧
    (∀ t, brick_wall [[1, 2, 3]] haar_filter "dwt" = .ok t →
      t.length = ([[1, 2, 3]] : List Vec).length ∧
      t.getD 0 [] = (([[1, 2, 3]] : List Vec).getD 0 []).drop
        (min (bwCount haar_filter.L "dwt" 0) (([[1, 2, 3]] : List Vec).getD 0 []).length)) ∧
    (2 ≤ haar_filter.L →
      (bwCount haar_filter.L "dwt" 0 : ℤ) =
        ⌈((haar_filter.L : ℝ) - 2) * (1 - 1 / 2 ^ (0 + 1))⌉) ∧
    ((∀ i, i < ([[1, 2, 3]] : List Vec).length →
      bwCount haar_filter.L "modwt" i < (([[1, 2, 3]] : List Vec).getD i []).length) →
      isOk (brick_wall [[1, 2, 3]] haar_filter "modwt") = true) ∧
    ((([[1, 2, 3]] : List Vec).getD 0 []).length ≤ (2 ^ (0 + 1) - 1) * (haar_filter.L - 1) →
      brick_wall [[1, 2, 3]] haar_filter "modwt" = .error .outOfBounds) ∧
    ((([[1, 2, 3]] : List Vec).getD 0 []).length ≤ bwCount haar_filter.L "dwt" 0 →
      brick_wall [[1, 2, 3]] haar_filter "dwt" = .error .outOfBounds)) :=
  ⟨⟨by decide, by decide⟩, c2_brick_wall [[1, 2, 3]] haar_filter 0 (by decide) (by decide)⟩

/-! ### Claim C3: the QMF sign pattern (corrected) -/

/-- C3 counterexample: the claim predicts that the inverse QMF negates the
elements at even indices, so `qmf [1, 2] true` would be `[-2, 1]`; the code
negates the odd indices, giving `[2, -1]`. -/
theorem c3_counterexample :
    qmf [(1 : ℝ), 2] true = [2, -1] ∧ ([2, -1] : Vec) ≠ [-2, 1] := by
  constructor
  · simp [qmf, reverse_vec, qmfAux]
  · intro h
    have h1 : (2 : ℝ) = -2 := by
      have := congrArg (fun l => l.getD 0 0) h
      simpa using this
    norm_num at h1

/-- C3 (corrected): `qmf` reverses the input and negates the element at
index `i` exactly when `(i + !inverse) % 2 ≠ 0`, i.e. at odd `i` in the
inverse form (`inverse = true`, the source default) and at even `i` in the
forward form; `haar_filter` applies the default (inverse) QMF to
`g = (1/√2, 1/√2)`, yielding `h = (1/√2, -1/√2)`. -/
theorem c3_qmf_signs (g : Vec) (inverse : Bool) (i : ℕ) (hi : i < g.length) :
    (qmf g inverse).length = g.length ∧
    (qmf g inverse).getD i 0 =
      (if (inverse = true ∧ i % 2 = 1) ∨ (inverse = false ∧ i % 2 = 0)
        then -(g.reverse.getD i 0) else g.reverse.getD i 0) ∧
    haar_filter.g = [1 / Real.sqrt 2, 1 / Real.sqrt 2] ∧
    haar_filter.h = qmf haar_filter.g true ∧
    haar_filter.h = [1 / Real.sqrt 2, -(1 / Real.sqrt 2)] := by
  refine ⟨?_, ?_, rfl, rfl, ?_⟩
  · rw [qmf, qmfAux_length, reverse_vec, List.length_reverse]
  · have hi' : i < (reverse_vec g).length := by
      rw [reverse_vec, List.length_reverse]; exact hi
    rw [qmf, qmfAux_getD inverse 0 (reverse_vec g) i hi', reverse_vec]
    rcases inverse with _ | _
    · have : (0 + i + if false = true then 0 else 1) % 2 = (i + 1) % 2 := by simp
      rw [this]
      rcases Nat.even_or_odd i with he | ho
      · have h2 : i % 2 = 0 := Nat.even_iff.mp he
        have : (i + 1) % 2 = 1 := by omega
        simp [this, h2]
      · have h2 : i % 2 = 1 := Nat.odd_iff.mp ho
        have : (i + 1) % 2 = 0 := by omega
        simp [this, h2]
    · have : (0 + i + if true = true then 0 else 1) % 2 = i % 2 := by simp
      rw [this]
      rcases Nat.even_or_odd i with he | ho
      · have h2 : i % 2 = 0 := Nat.even_iff.mp he
        simp [h2]
      · have h2 : i % 2 = 1 := Nat.odd_iff.mp ho
        simp [h2]
  · simp [haar_filter, qmf, reverse_vec, qmfAux]

/-- C3 witness: the corrected sign pattern at the concrete input `[1, 2]`,
inverse form, index `1`. -/
theorem c3_qmf_signs_witness :
    (1 < ([(1 : ℝ), 2] : Vec).length) ∧
    ((qmf [(1 : ℝ), 2] true).length = ([(1 : ℝ), 2] : Vec).length ∧
    (qmf [(1 : ℝ), 2] true).getD 1 0 =
      (if (true = true ∧ 1 % 2 = 1) ∨ (true = false ∧ 1 % 2 = 0)
        then -(([(1 : ℝ), 2] : Vec).reverse.getD 1 0)
        else ([(1 : ℝ), 2] : Vec).reverse.getD 1 0) ∧
    haar_filter.g = [1 / Real.sqrt 2, 1 / Real.sqrt 2] ∧
    haar_filter.h = qmf haar_filter.g true ∧
    haar_filter.h = [1 / Real.sqrt 2, -(1 / Real.sqrt 2)]) :=
  ⟨by decide, c3_qmf_signs [(1 : ℝ), 2] true 1 (by decide)⟩

/-! ### Claim C7: eta3 interval ordering -/

/-- C7 (confirmed): for a level with positive variance estimate, the eta3
interval at `p = 0.025` satisfies `lower ≤ variance ≤ upper`, given the
standard chi-squared quantile properties (both quantiles positive, the
2.5% quantile at most the degrees of freedom, the 97.5% quantile at least
the degrees of freedom; `eta3 ≥ 1` holds by construction of the `max`). -/
theorem c7_eta3_ordering (qchisq : ℝ → ℝ → ℝ) (y dims : Vec) (i : ℕ)
    (hi : i < dims.length)
    (hvar : 0 < y.getD i 0)
    (hq_pos : 0 < qchisq 0.025 (max (dims.getD i 0 / 2 ^ (i + 1)) 1))
    (hq_lo : qchisq 0.025 (max (dims.getD i 0 / 2 ^ (i + 1)) 1) ≤
      max (dims.getD i 0 / 2 ^ (i + 1)) 1)
    (hq_hi : max (dims.getD i 0 / 2 ^ (i + 1)) 1 ≤
      qchisq (1 - 0.025) (max (dims.getD i 0 / 2 ^ (i + 1)) 1)) :
    1 ≤ max (dims.getD i 0 / 2 ^ (i + 1)) 1 ∧
    ((ci_eta3 qchisq y dims 0.025).getD i (0, 0, 0)).2.1 ≤
      ((ci_eta3 qchisq y dims 0.025).getD i (0, 0, 0)).1 ∧
    ((ci_eta3 qchisq y dims 0.025).getD i (0, 0, 0)).1 ≤
      ((ci_eta3 qchisq y dims 0.025).getD i (0, 0, 0)).2.2 := by
  have hrow : (ci_eta3 qchisq y dims 0.025).getD i (0, 0, 0) =
      (y.getD i 0,
        max (dims.getD i 0 / 2 ^ (i + 1)) 1 * y.getD i 0 /
          qchisq (1 - 0.025) (max (dims.getD i 0 / 2 ^ (i + 1)) 1),
        max (dims.getD i 0 / 2 ^ (i + 1)) 1 * y.getD i 0 /
          qchisq 0.025 (max (dims.getD i 0 / 2 ^ (i + 1)) 1)) := by
    rw [ci_eta3, getD_range_map _ _ _ _ hi]
  set e := max (dims.getD i 0 / 2 ^ (i + 1)) 1 with he
  have he1 : (1 : ℝ) ≤ e := le_max_right _ _
  have hepos : (0 : ℝ) < e := lt_of_lt_of_le one_pos he1
  have hq975 : (0 : ℝ) < qchisq (1 - 0.025) e := lt_of_lt_of_le hepos hq_hi
  rw [hrow]
  refine ⟨he1, ?_, ?_⟩
  · rw [div_le_iff₀ hq975]
    calc e * y.getD i 0 ≤ qchisq (1 - 0.025) e * y.getD i 0 :=
          mul_le_mul_of_nonneg_right hq_hi (le_of_lt hvar)
      _ = y.getD i 0 * qchisq (1 - 0.025) e := mul_comm _ _
  · rw [le_div_iff₀ hq_pos]
    calc y.getD i 0 * qchisq 0.025 e ≤ y.getD i 0 * e :=
          mul_le_mul_of_nonneg_left hq_lo (le_of_lt hvar)
      _ = e * y.getD i 0 := mul_comm _ _

/-- C7 witness: with `y = dims = [1]` the degrees of freedom are `1` and the
quantile function `q(0.025, e) = e/2`, `q(0.975, e) = 2e` satisfies all the
standard-property hypotheses. -/
theorem c7_eta3_ordering_witness :
    (0 < ([(1 : ℝ)] : Vec).length ∧
      (0 : ℝ) < ([(1 : ℝ)] : Vec).getD 0 0 ∧
      (0 : ℝ) < (fun q e => if q < 1 / 2 then e / 2 else 2 * e)
        (0.025 : ℝ) (max (([(1 : ℝ)] : Vec).getD 0 0 / 2 ^ (0 + 1)) 1) ∧
      (fun q e => if q < 1 / 2 then e / 2 else 2 * e)
        (0.025 : ℝ) (max (([(1 : ℝ)] : Vec).getD 0 0 / 2 ^ (0 + 1)) 1) ≤
        max (([(1 : ℝ)] : Vec).getD 0 0 / 2 ^ (0 + 1)) 1 ∧
      max (([(1 : ℝ)] : Vec).getD 0 0 / 2 ^ (0 + 1)) 1 ≤
        (fun q e => if q < 1 / 2 then e / 2 else 2 * e)
          ((1 : ℝ) - 0.025) (max (([(1 : ℝ)] : Vec).getD 0 0 / 2 ^ (0 + 1)) 1)) ∧
    (1 ≤ max (([(1 : ℝ)] : Vec).getD 0 0 / 2 ^ (0 + 1)) 1 ∧
      ((ci_eta3 (fun q e => if q < 1 / 2 then e / 2 else 2 * e) [(1 : ℝ)] [(1 : ℝ)]
          0.025).getD 0 (0, 0, 0)).2.1 ≤
        ((ci_eta3 (fun q e => if q < 1 / 2 then e / 2 else 2 * e) [(1 : ℝ)] [(1 : ℝ)]
          0.025).getD 0 (0, 0, 0)).1 ∧
      ((ci_eta3 (fun q e => if q < 1 / 2 then e / 2 else 2 * e) [(1 : ℝ)] [(1 : ℝ)]
          0.025).getD 0 (0, 0, 0)).1 ≤
        ((ci_eta3 (fun q e => if q < 1 / 2 then e / 2 else 2 * e) [(1 : ℝ)] [(1 : ℝ)]
          0.025).getD 0 (0, 0, 0)).2.2) := by
  have hmax : max ((([(1 : ℝ)] : Vec).getD 0 0) / 2 ^ (0 + 1)) 1 = 1 := by
    rw [List.getD_cons_zero]
    norm_num
  refine ⟨⟨by decide, by norm_num, ?_, ?_, ?_⟩,
    c7_eta3_ordering (fun q e => if q < 1 / 2 then e / 2 else 2 * e) [(1 : ℝ)] [(1 : ℝ)] 0
      (by decide) (by norm_num) ?_ ?_ ?_⟩
  · rw [hmax]; norm_num
  · rw [hmax]; norm_num
  · rw [hmax]; norm_num
  · rw [hmax]; norm_num
  · rw [hmax]; norm_num
  · rw [hmax]; norm_num

/-! ### Claim C9: empty levels never raise an error in wave_variance -/

/-- C9 (confirmed): `wave_variance` performs no zero-count check: on a
decomposition whose level `i` is empty it still succeeds (no
`EmptyLevelError` exists in the code), computing that level's variance as
the dot product of the empty sequence with itself divided by the zero
count. -/
theorem c9_empty_level (qchisq : ℝ → ℝ → ℝ) (p : ℝ) (x : List Vec) (i : ℕ)
    (hi : i < x.length) (hempty : x.getD i [] = []) :
    isOk (wave_variance qchisq x "eta3" p) = true ∧
    varOf (wave_variance qchisq x "eta3" p) i =
      dot (x.getD i []) (x.getD i []) / ((x.getD i []).length : ℝ) := by
  have hwv : wave_variance qchisq x "eta3" p =
      .ok (ci_eta3 qchisq (x.map fun l => dot l l / (l.length : ℝ))
        (x.map fun l => (l.length : ℝ)) p) := by
    rw [wave_variance]
    simp
  refine ⟨by rw [hwv]; rfl, ?_⟩
  have hidim : i < (x.map fun l => (l.length : ℝ)).length := by
    rw [List.length_map]; exact hi
  rw [varOf, hwv, cellOf_ok, ci_eta3, getD_range_map _ _ _ _ hidim,
    getD_map_of_lt (fun l => dot l l / (l.length : ℝ)) x i hi 0 []]

/-- C9 witness: the decomposition `[[]]` whose only level is empty. -/
theorem c9_empty_level_witness :
    (0 < ([[]] : List Vec).length ∧ ([[]] : List Vec).getD 0 [] = []) ∧
    (isOk (wave_variance constQ [[]] "eta3" 0.025) = true ∧
      varOf (wave_variance constQ [[]] "eta3" 0.025) 0 =
        dot (([[]] : List Vec).getD 0 []) (([[]] : List Vec).getD 0 []) /
          ((([[]] : List Vec).getD 0 []).length : ℝ)) :=
  ⟨⟨by decide, rfl⟩, c9_empty_level constQ 0.025 [[]] 0 (by decide) rfl⟩

/-! ### Claim C10: unknown trim methods silently use the MODWT formula -/

/-- C10 counterexample: the claim asserts an unrecognized trim method never
raises an error; `brick_wall` on `[[1]]` with method `"banana"` applies the
MODWT count `1 ≥ 1` and raises the Armadillo bounds error. -/
theorem c10_counterexample :
    brick_wall [[(1 : ℝ)]] haar_filter "banana" = .error .outOfBounds ∧
    isOk (brick_wall [[(1 : ℝ)]] haar_filter "banana") = false :=
  ⟨rfl, rfl⟩

/-- C10 (corrected): for any method string other than `"dwt"` — including
unknown strings outside `{"modwt", "dwt"}` — `brick_wall` behaves exactly
as with `"modwt"`, silently applying the MODWT trim-count formula
`(2^(j+1) - 1)(m - 1)`; the unrecognized method itself is never rejected,
though the operation can still raise the Armadillo bounds error exactly as
it does for `"modwt"` when a count reaches a level's length. -/
theorem c10_unknown_method (x : List Vec) (f : WaveletFilter) (method : String)
    (h : method ≠ "dwt") :
    brick_wall x f method = brick_wall x f "modwt" ∧
    ∀ t, brick_wall x f method = .ok t → t.length = x.length ∧
      ∀ j, j < x.length → t.getD j [] =
        (x.getD j []).drop (min ((2 ^ (j + 1) - 1) * (f.L - 1)) (x.getD j []).length) := by
  refine ⟨brick_wallAux_of_ne_dwt f.L method h 0 x, ?_⟩
  intro t ht
  refine ⟨brick_wallAux_ok_length f.L method 0 x t ht, ?_⟩
  intro j hj
  have hg := brick_wallAux_ok_getD f.L method 0 x t j ht hj
  rw [Nat.zero_add, bwCount_of_ne_dwt f.L method h] at hg
  exact hg

/-- C10 witness: the unrecognized method string `"banana"` on a two-element
level (trim count 1 below length 2). -/
theorem c10_unknown_method_witness :
    ("banana" ≠ "dwt") ∧
    (brick_wall [[1, 2]] haar_filter "banana" = brick_wall [[1, 2]] haar_filter "modwt" ∧
      ∀ t, brick_wall [[1, 2]] haar_filter "banana" = .ok t →
        t.length = ([[1, 2]] : List Vec).length ∧
        ∀ j, j < ([[1, 2]] : List Vec).length → t.getD j [] =
          (([[1, 2]] : List Vec).getD j []).drop
            (min ((2 ^ (j + 1) - 1) * (haar_filter.L - 1))
              (([[1, 2]] : List Vec).getD j []).length)) :=
  ⟨by decide, c10_unknown_method [[1, 2]] haar_filter "banana" (by decide)⟩

/-! ### Pyramid-transform level-structure lemmas -/

lemma dwt_levelsAux_length (h g : Vec) (N : ℕ) : ∀ (r j : ℕ) (x : Vec),
    (dwt_levelsAux h g N j r x).length = r
  | 0, _, _ => rfl
  | r + 1, j, x => by
      simp [dwt_levelsAux, dwt_levelsAux_length h g N r (j + 1)]

lemma dwt_levelsAux_getD_length (h g : Vec) (N : ℕ) : ∀ (r j i : ℕ) (x : Vec), i < r →
    ((dwt_levelsAux h g N j r x).getD i []).length = N / 2 ^ (j + i) / 2
  | 0, _, i, _, hi => absurd hi (Nat.not_lt_zero i)
  | _ + 1, _, 0, _, _ => by
      simp only [dwt_levelsAux, List.getD_cons_zero, List.length_map, List.length_range,
        Nat.add_zero]
  | r + 1, j, i + 1, x, hi => by
      simp only [dwt_levelsAux, List.getD_cons_succ]
      rw [dwt_levelsAux_getD_length h g N r (j + 1) i _ (Nat.lt_of_succ_lt_succ hi)]
      have : j + 1 + i = j + (i + 1) := by omega
      rw [this]

lemma modwt_levelsAux_length (ht gt : Vec) (N : ℕ) : ∀ (r j : ℕ) (x : Vec),
    (modwt_levelsAux ht gt N j r x).length = r
  | 0, _, _ => rfl
  | r + 1, j, x => by
      simp [modwt_levelsAux, modwt_levelsAux_length ht gt N r (j + 1)]

lemma modwt_levelsAux_getD_length (ht gt : Vec) (N : ℕ) : ∀ (r j i : ℕ) (x : Vec), i < r →
    ((modwt_levelsAux ht gt N j r x).getD i []).length = N
  | 0, _, i, _, hi => absurd hi (Nat.not_lt_zero i)
  | _ + 1, _, 0, _, _ => by
      simp only [modwt_levelsAux, List.getD_cons_zero, List.length_map, List.length_range]
  | r + 1, j, i + 1, x, hi => by
      simp only [modwt_levelsAux, List.getD_cons_succ]
      exact modwt_levelsAux_getD_length ht gt N r (j + 1) i _ (Nat.lt_of_succ_lt_succ hi)

lemma select_filter_haar : select_filter "haar" = .ok haar_filter := by
  rw [select_filter]
  simp

lemma boundary_handle_periodic (x : Vec) : boundary_handle x "periodic" = .ok x := by
  rw [boundary_handle]
  simp

/-- `dwt_arma` after successful boundary handling. -/
lemma dwt_arma_eq_of_boundary (x : Vec) (J : ℕ) (b : String) (xb : Vec)
    (hb : boundary_handle x b = .ok xb) :
    dwt_arma x "haar" J b =
      if ¬ (2 ^ J ∣ xb.length) then .error .invalidDecomposition
      else if 2 ^ J > xb.length then .error .invalidDecomposition
      else .ok (dwt_levelsAux haar_filter.h haar_filter.g xb.length 0 J xb) := by
  rw [dwt_arma.eq_def, hb, select_filter_haar]

/-- `modwt_arma` after successful boundary handling. -/
lemma modwt_arma_eq_of_boundary (x : Vec) (J : ℕ) (b : String) (xb : Vec)
    (hb : boundary_handle x b = .ok xb) :
    modwt_arma x "haar" J b =
      if 2 ^ J > xb.length then .error .invalidDecomposition
      else .ok (modwt_levelsAux (haar_filter.h.map fun c => c / Real.sqrt 2)
        (haar_filter.g.map fun c => c / Real.sqrt 2) xb.length 0 J xb) := by
  rw [modwt_arma.eq_def, hb, select_filter_haar]

/-! ### Claim C4: decomposition error conditions -/

/-- C4 (confirmed): after (supported) boundary handling producing a signal of
length `N`, the DWT yields the invalid-decomposition error exactly when
`2^J ∤ N` or `2^J > N`, the MODWT exactly when `2^J > N`, and both succeed
otherwise with the supported `"haar"` filter. -/
theorem c4_error_conditions (x : Vec) (J : ℕ) (b : String) (xb : Vec)
    (hb : boundary_handle x b = .ok xb) :
    (dwt_arma x "haar" J b = .error .invalidDecomposition ↔
      (¬ (2 ^ J ∣ xb.length) ∨ 2 ^ J > xb.length)) ∧
    (modwt_arma x "haar" J b = .error .invalidDecomposition ↔ 2 ^ J > xb.length) ∧
    ((2 ^ J ∣ xb.length ∧ 2 ^ J ≤ xb.length) → isOk (dwt_arma x "haar" J b) = true) ∧
    (2 ^ J ≤ xb.length → isOk (modwt_arma x "haar" J b) = true) := by
  have hd := dwt_arma_eq_of_boundary x J b xb hb
  have hm := modwt_arma_eq_of_boundary x J b xb hb
  by_cases hdvd : 2 ^ J ∣ xb.length <;> by_cases hlt : 2 ^ J > xb.length <;>
    simp [hd, hm, hdvd, hlt, isOk, Nat.le_of_not_lt, Nat.not_lt_of_lt]

/-- C4 witness: `x = [1, 2]`, `J = 1`, periodic boundary. -/
theorem c4_error_conditions_witness :
    (boundary_handle [(1 : ℝ), 2] "periodic" = .ok [(1 : ℝ), 2]) ∧
    ((dwt_arma [(1 : ℝ), 2] "haar" 1 "periodic" = .error .invalidDecomposition ↔
      (¬ (2 ^ 1 ∣ ([(1 : ℝ), 2] : Vec).length) ∨ 2 ^ 1 > ([(1 : ℝ), 2] : Vec).length)) ∧
    (modwt_arma [(1 : ℝ), 2] "haar" 1 "periodic" = .error .invalidDecomposition ↔
      2 ^ 1 > ([(1 : ℝ), 2] : Vec).length) ∧
    ((2 ^ 1 ∣ ([(1 : ℝ), 2] : Vec).length ∧ 2 ^ 1 ≤ ([(1 : ℝ), 2] : Vec).length) →
      isOk (dwt_arma [(1 : ℝ), 2] "haar" 1 "periodic") = true) ∧
    (2 ^ 1 ≤ ([(1 : ℝ), 2] : Vec).length →
      isOk (modwt_arma [(1 : ℝ), 2] "haar" 1 "periodic") = true)) :=
  ⟨boundary_handle_periodic [(1 : ℝ), 2],
    c4_error_conditions [(1 : ℝ), 2] 1 "periodic" [(1 : ℝ), 2]
      (boundary_handle_periodic [(1 : ℝ), 2])⟩

/-! ### Claim C6: level counts and level lengths -/

/-- C6 (confirmed): under the decomposition preconditions, the DWT returns
exactly `J` levels where the 0-based level `i` has length `N / 2^(i+1)`
(level `j = i + 1` in 1-based counting has length `N / 2^j`), and the MODWT
returns exactly `J` levels, each of length `N`. -/
theorem c6_level_lengths (x : Vec) (J : ℕ) (hdvd : 2 ^ J ∣ x.length)
    (hle : 2 ^ J ≤ x.length) :
    ∃ d w : List Vec,
      dwt_arma x "haar" J "periodic" = .ok d ∧ d.length = J ∧
      (∀ i, i < J → (d.getD i []).length = x.length / 2 ^ (i + 1)) ∧
      modwt_arma x "haar" J "periodic" = .ok w ∧ w.length = J ∧
      (∀ i, i < J → (w.getD i []).length = x.length) := by
  have hd := dwt_arma_eq_of_boundary x J "periodic" x (boundary_handle_periodic x)
  have hm := modwt_arma_eq_of_boundary x J "periodic" x (boundary_handle_periodic x)
  have hnlt : ¬ (2 ^ J > x.length) := not_lt_of_le hle
  rw [if_neg (not_not_intro hdvd), if_neg hnlt] at hd
  rw [if_neg hnlt] at hm
  refine ⟨_, _, hd, dwt_levelsAux_length _ _ _ J 0 x, ?_,
    hm, modwt_levelsAux_length _ _ _ J 0 x, ?_⟩
  · intro i hi
    rw [dwt_levelsAux_getD_length haar_filter.h haar_filter.g x.length J 0 i x hi,
      Nat.zero_add, Nat.div_div_eq_div_mul, ← pow_succ]
  · intro i hi
    exact modwt_levelsAux_getD_length _ _ x.length J 0 i x hi

/-- C6 witness: `x = [1, 2, 3, 4]`, `J = 2`. -/
theorem c6_level_lengths_witness :
    (2 ^ 2 ∣ ([(1 : ℝ), 2, 3, 4] : Vec).length ∧
      2 ^ 2 ≤ ([(1 : ℝ), 2, 3, 4] : Vec).length) ∧
    (∃ d w : List Vec,
      dwt_arma [(1 : ℝ), 2, 3, 4] "haar" 2 "periodic" = .ok d ∧ d.length = 2 ∧
      (∀ i, i < 2 → (d.getD i []).length = ([(1 : ℝ), 2, 3, 4] : Vec).length / 2 ^ (i + 1)) ∧
      modwt_arma [(1 : ℝ), 2, 3, 4] "haar" 2 "periodic" = .ok w ∧ w.length = 2 ∧
      (∀ i, i < 2 → (w.getD i []).length = ([(1 : ℝ), 2, 3, 4] : Vec).length)) :=
  ⟨⟨by decide, by decide⟩, c6_level_lengths [(1 : ℝ), 2, 3, 4] 2 (by decide) (by decide)⟩

/-! ### Claim C5: the orchestrator -/

lemma diagm_replicate_one (n : ℕ) :
    diagm (List.replicate n (1 : ℝ)) =
      (List.range n).map fun i => (List.range n).map fun j => if i = j then (1 : ℝ) else 0 := by
  rw [diagm, List.length_replicate]
  apply List.map_congr_left
  intro i hi
  apply List.map_congr_left
  intro _ _
  rw [getD_replicate_of_lt _ _ _ _ (List.mem_range.mp hi)]

/-- C5 (confirmed): `wavelet_variance_arma` uses `floor(log2 N)` levels, the
MODWT with periodic boundary, the MODWT (default) brick wall — which always
succeeds here since every trim count `2^(j+1) - 1` stays below the level
length `N` — the eta3 estimate at `p = 0.025`, and scales `2^j` for
`j = 1..levels`; with `compute_v = "no"` the Gaussian bounds are all NaN
(`none`) and the covariance matrix `V` is the identity. -/
theorem c5_orchestrator (qchisq : ℝ → ℝ → ℝ) (qnorm : ℝ → ℝ) (signal : Vec)
    (h : 0 < signal.length) :
    ∃ w bw : List Vec, ∃ vm : List (ℝ × ℝ × ℝ),
      modwt_arma signal "haar" (Nat.log2 signal.length) "periodic" = .ok w ∧
      brick_wall w haar_filter "modwt" = .ok bw ∧
      wave_variance qchisq bw "eta3" 0.025 = .ok vm ∧
      wavelet_variance_arma qchisq qnorm signal "haar" "no" = .ok
        { variance := vm.map fun c => c.1
          low := vm.map fun c => c.2.1
          high := vm.map fun c => c.2.2
          scales := (List.range (Nat.log2 signal.length)).map fun i => (2 : ℝ) ^ (i + 1)
          V := (List.range (Nat.log2 signal.length)).map fun i =>
            (List.range (Nat.log2 signal.length)).map fun j => if i = j then (1 : ℝ) else 0
          up_gauss := List.replicate (Nat.log2 signal.length) none
          dw_gauss := List.replicate (Nat.log2 signal.length) none } := by
  have hle : 2 ^ Nat.log2 signal.length ≤ signal.length := by
    rw [Nat.log2_eq_log_two]
    exact Nat.pow_log_le_self 2 (Nat.pos_iff_ne_zero.mp h)
  have hmod := modwt_arma_eq_of_boundary signal (Nat.log2 signal.length) "periodic" signal
    (boundary_handle_periodic signal)
  rw [if_neg (not_lt_of_le hle)] at hmod
  have hcount : ∀ i, i < (modwt_levelsAux (haar_filter.h.map fun c => c / Real.sqrt 2)
      (haar_filter.g.map fun c => c / Real.sqrt 2) signal.length 0
      (Nat.log2 signal.length) signal).length →
      bwCount haar_filter.L "modwt" (0 + i) <
        ((modwt_levelsAux (haar_filter.h.map fun c => c / Real.sqrt 2)
          (haar_filter.g.map fun c => c / Real.sqrt 2) signal.length 0
          (Nat.log2 signal.length) signal).getD i []).length := by
    intro i hi
    rw [modwt_levelsAux_length] at hi
    rw [modwt_levelsAux_getD_length _ _ signal.length (Nat.log2 signal.length) 0 i signal hi,
      Nat.zero_add, bwCount_of_ne_dwt _ _ (by decide)]
    have hL : haar_filter.L = 2 := rfl
    rw [hL]
    have h1 : 0 < 2 ^ (i + 1) := Nat.pos_pow_of_pos _ (by norm_num)
    have h2 : 2 ^ (i + 1) ≤ 2 ^ Nat.log2 signal.length :=
      Nat.pow_le_pow_right (by norm_num) (by omega)
    have h3 : (2 ^ (i + 1) - 1) * (2 - 1) = 2 ^ (i + 1) - 1 := by simp
    rw [h3]
    omega
  obtain ⟨bw, hbw⟩ := brick_wallAux_isOk haar_filter.L "modwt" 0 _ hcount
  have hbw2 : brick_wall (modwt_levelsAux (haar_filter.h.map fun c => c / Real.sqrt 2)
      (haar_filter.g.map fun c => c / Real.sqrt 2) signal.length 0
      (Nat.log2 signal.length) signal) haar_filter "modwt" = .ok bw := hbw
  have hwv : wave_variance qchisq bw "eta3" 0.025 =
      .ok (ci_eta3 qchisq (bw.map fun l => dot l l / (l.length : ℝ))
        (bw.map fun l => (l.length : ℝ)) 0.025) := by
    rw [wave_variance, if_pos (rfl : ("eta3" : String) = "eta3")]
  refine ⟨_, bw, _, hmod, hbw2, hwv, ?_⟩
  simp only [wavelet_variance_arma, hmod, select_filter_haar, hbw2, hwv,
    diagm_replicate_one]
  simp

/-- C5 witness: the two-sample signal `[1, 2]`. -/
theorem c5_orchestrator_witness :
    (0 < ([(1 : ℝ), 2] : Vec).length) ∧
    (∃ w bw : List Vec, ∃ vm : List (ℝ × ℝ × ℝ),
      modwt_arma [(1 : ℝ), 2] "haar" (Nat.log2 ([(1 : ℝ), 2] : Vec).length) "periodic" =
        .ok w ∧
      brick_wall w haar_filter "modwt" = .ok bw ∧
      wave_variance constQ bw "eta3" 0.025 = .ok vm ∧
      wavelet_variance_arma constQ (fun q => q) [(1 : ℝ), 2] "haar" "no" = .ok
        { variance := vm.map fun c => c.1
          low := vm.map fun c => c.2.1
          high := vm.map fun c => c.2.2
          scales := (List.range (Nat.log2 ([(1 : ℝ), 2] : Vec).length)).map
            fun i => (2 : ℝ) ^ (i + 1)
          V := (List.range (Nat.log2 ([(1 : ℝ), 2] : Vec).length)).map fun i =>
            (List.range (Nat.log2 ([(1 : ℝ), 2] : Vec).length)).map
              fun j => if i = j then (1 : ℝ) else 0
          up_gauss := List.replicate (Nat.log2 ([(1 : ℝ), 2] : Vec).length) none
          dw_gauss := List.replicate (Nat.log2 ([(1 : ℝ), 2] : Vec).length) none }) :=
  ⟨by decide, c5_orchestrator constQ (fun q => q) [(1 : ℝ), 2] (by decide)⟩

/-! ### Claim C1: which length feeds the eta3 degrees of freedom (corrected) -/

/-- C1 counterexample: the MODWT brick wall maps the one-level decomposition
`[[1,1,1,1,1,1,1,1]]` (pre-trim level length `8`) to the trimmed level of
length `7`, and with the constant quantile function the computed lower bound
on it is `max(7/2, 1) · var / 1 = 3.5 · var`, not the
`max(8/2, 1) · var / 1 = 4 · var` the claim's pre-trim degrees of freedom
would give (`var = 1` here). -/
theorem c1_counterexample :
    brick_wall [[1, 1, 1, 1, 1, 1, 1, 1]] haar_filter "modwt" =
      .ok [[1, 1, 1, 1, 1, 1, 1]] ∧
    lowOf (wave_variance constQ [[1, 1, 1, 1, 1, 1, 1]] "eta3" 0.025) 0 ≠
      max ((8 : ℝ) / 2 ^ (0 + 1)) 1 *
        varOf (wave_variance constQ [[1, 1, 1, 1, 1, 1, 1]] "eta3" 0.025) 0 /
        constQ (1 - 0.025) (max ((8 : ℝ) / 2 ^ (0 + 1)) 1) := by
  refine ⟨rfl, ?_⟩
  rw [wave_variance, if_pos (rfl : ("eta3" : String) = "eta3")]
  rw [lowOf, varOf, cellOf_ok]
  simp only [List.map_cons, List.map_nil, List.length_cons, List.length_nil, ci_eta3,
    List.length_singleton, List.range_succ, List.range_zero, List.nil_append,
    List.map_cons, List.getD_cons_zero, constQ, dot, List.zip_cons_cons,
    List.zip_nil_right, List.sum_cons, List.sum_nil]
  norm_num

/-- C1 (corrected): the eta3 bounds of the estimator pipeline are computed
with `eta3_i = max(T_i / 2^(i+1), 1)` where `T_i` is the trimmed (post-trim)
length of level `i` of the brick-walled decomposition, not the pre-trim
length; that value feeds the chi-squared quantile in both bounds. -/
theorem c1_eta3_uses_trimmed_length (qchisq : ℝ → ℝ → ℝ) (d : List Vec)
    (f : WaveletFilter) (p : ℝ) (i : ℕ) (t : List Vec)
    (hbw : brick_wall d f "modwt" = .ok t) (hi : i < d.length) :
    lowOf (wave_variance qchisq t "eta3" p) i =
      max (((t.getD i []).length : ℝ) / 2 ^ (i + 1)) 1 *
        varOf (wave_variance qchisq t "eta3" p) i /
        qchisq (1 - p) (max (((t.getD i []).length : ℝ) / 2 ^ (i + 1)) 1) ∧
    highOf (wave_variance qchisq t "eta3" p) i =
      max (((t.getD i []).length : ℝ) / 2 ^ (i + 1)) 1 *
        varOf (wave_variance qchisq t "eta3" p) i /
        qchisq p (max (((t.getD i []).length : ℝ) / 2 ^ (i + 1)) 1) := by
  have hit : i < t.length := by
    rw [brick_wallAux_ok_length f.L "modwt" 0 d t hbw]
    exact hi
  have hwv : wave_variance qchisq t "eta3" p =
      .ok (ci_eta3 qchisq (t.map fun l => dot l l / (l.length : ℝ))
        (t.map fun l => (l.length : ℝ)) p) := by
    rw [wave_variance, if_pos (rfl : ("eta3" : String) = "eta3")]
  have hidim : i < (t.map fun l => (l.length : ℝ)).length := by
    rw [List.length_map]
    exact hit
  have hdims : (t.map fun l => (l.length : ℝ)).getD i 0 = ((t.getD i []).length : ℝ) :=
    getD_map_of_lt _ _ i hit 0 []
  rw [lowOf, highOf, varOf, hwv, cellOf_ok, ci_eta3, getD_range_map _ _ _ _ hidim, hdims]
  exact ⟨rfl, rfl⟩

/-- C1 witness for the corrected statement: the same concrete trimmed
decomposition as the counterexample, level `0`. -/
theorem c1_eta3_uses_trimmed_length_witness :
    (brick_wall [[1, 1, 1, 1, 1, 1, 1, 1]] haar_filter "modwt" =
        .ok [[1, 1, 1, 1, 1, 1, 1]] ∧
      0 < ([[1, 1, 1, 1, 1, 1, 1, 1]] : List Vec).length) ∧
    (lowOf (wave_variance constQ [[1, 1, 1, 1, 1, 1, 1]] "eta3" 0.025) 0 =
      max (((([[1, 1, 1, 1, 1, 1, 1]] : List Vec).getD 0 []).length : ℝ) / 2 ^ (0 + 1)) 1 *
        varOf (wave_variance constQ [[1, 1, 1, 1, 1, 1, 1]] "eta3" 0.025) 0 /
        constQ (1 - 0.025)
          (max (((([[1, 1, 1, 1, 1, 1, 1]] : List Vec).getD 0 []).length : ℝ) /
            2 ^ (0 + 1)) 1) ∧
    highOf (wave_variance constQ [[1, 1, 1, 1, 1, 1, 1]] "eta3" 0.025) 0 =
      max (((([[1, 1, 1, 1, 1, 1, 1]] : List Vec).getD 0 []).length : ℝ) / 2 ^ (0 + 1)) 1 *
        varOf (wave_variance constQ [[1, 1, 1, 1, 1, 1, 1]] "eta3" 0.025) 0 /
        constQ 0.025
          (max (((([[1, 1, 1, 1, 1, 1, 1]] : List Vec).getD 0 []).length : ℝ) /
            2 ^ (0 + 1)) 1)) :=
  ⟨⟨rfl, by decide⟩,
    c1_eta3_uses_trimmed_length constQ [[1, 1, 1, 1, 1, 1, 1, 1]] haar_filter 0.025 0
      [[1, 1, 1, 1, 1, 1, 1]] rfl (by decide)⟩

/-! ### Discrete-Fourier-transform lemmas for claim C8 -/

lemma cexp2pi_zero (M : ℕ) : cexp2pi M 0 = 1 := by
  simp [cexp2pi]

lemma cexp2pi_add (M : ℕ) (a b : ℂ) : cexp2pi M a * cexp2pi M b = cexp2pi M (a + b) := by
  rw [cexp2pi, cexp2pi, cexp2pi, ← Complex.exp_add]
  congr 1
  ring

lemma cexp2pi_pow (M : ℕ) (z : ℂ) (k : ℕ) : cexp2pi M z ^ k = cexp2pi M (z * k) := by
  rw [cexp2pi, cexp2pi, ← Complex.exp_nat_mul]
  congr 1
  ring

lemma cexp2pi_conj (M : ℕ) (w : ℂ) (hw : (starRingEnd ℂ) w = w) :
    (starRingEnd ℂ) (cexp2pi M w) = cexp2pi M (-w) := by
  rw [cexp2pi, cexp2pi, ← Complex.exp_conj]
  congr 1
  rw [map_div₀, map_mul, map_mul, map_mul, map_natCast, map_ofNat, Complex.conj_I,
    Complex.conj_ofReal, hw]
  ring

lemma cexp2pi_pow_self (M : ℕ) (hM : 0 < M) (a b : ℕ) :
    cexp2pi M ((a : ℂ) - b) ^ M = 1 := by
  have hM0 : (M : ℂ) ≠ 0 := Nat.cast_ne_zero.mpr (Nat.pos_iff_ne_zero.mp hM)
  rw [cexp2pi_pow, cexp2pi]
  have harg : 2 * (Real.pi : ℂ) * Complex.I * (((a : ℂ) - b) * M) / M =
      ((((a : ℤ) - b) : ℤ) : ℂ) * (2 * Real.pi * Complex.I) := by
    push_cast
    field_simp
    ring
  rw [harg]
  exact Complex.exp_int_mul_two_pi_mul_I _

lemma cexp2pi_ne_one (M : ℕ) (hM : 0 < M) (a b : ℕ) (ha : a < M) (hb : b < M)
    (hab : a ≠ b) : cexp2pi M ((a : ℂ) - b) ≠ 1 := by
  intro hone
  rw [cexp2pi, Complex.exp_eq_one_iff] at hone
  obtain ⟨n, hn⟩ := hone
  have hM0 : (M : ℂ) ≠ 0 := Nat.cast_ne_zero.mpr (Nat.pos_iff_ne_zero.mp hM)
  have hfrac : ((a : ℂ) - b) / M = n := by
    apply mul_left_cancel₀ Complex.two_pi_I_ne_zero
    calc 2 * (Real.pi : ℂ) * Complex.I * (((a : ℂ) - b) / M)
        = 2 * (Real.pi : ℂ) * Complex.I * ((a : ℂ) - b) / M := by ring
      _ = (n : ℂ) * (2 * Real.pi * Complex.I) := hn
      _ = 2 * (Real.pi : ℂ) * Complex.I * n := by ring
  have h2 : (a : ℂ) - b = n * M := (div_eq_iff hM0).mp hfrac
  have hz : (a : ℤ) - b = n * M := by exact_mod_cast h2
  have haz : (a : ℤ) < M := by exact_mod_cast ha
  have hbz : (b : ℤ) < M := by exact_mod_cast hb
  have ha0 : (0 : ℤ) ≤ a := Int.natCast_nonneg a
  have hb0 : (0 : ℤ) ≤ b := Int.natCast_nonneg b
  have habz : (a : ℤ) ≠ b := by exact_mod_cast hab
  have hMz : (0 : ℤ) < M := by exact_mod_cast hM
  rcases lt_trichotomy n 0 with hneg | hzero | hpos
  · have h1n : n ≤ -1 := by omega
    have : n * (M : ℤ) ≤ -1 * M := mul_le_mul_of_nonneg_right h1n (le_of_lt hMz)
    linarith
  · rw [hzero] at hz
    simp at hz
    omega
  · have h1n : (1 : ℤ) ≤ n := hpos
    have : (1 : ℤ) * M ≤ n * M := mul_le_mul_of_nonneg_right h1n (le_of_lt hMz)
    linarith

lemma cexp2pi_orth (M : ℕ) (hM : 0 < M) (a b : ℕ) (ha : a < M) (hb : b < M) :
    ∑ k ∈ Finset.range M, cexp2pi M (((a : ℂ) - b) * k) =
      if a = b then (M : ℂ) else 0 := by
  by_cases hab : a = b
  · subst hab
    rw [if_pos rfl]
    have : ∀ k ∈ Finset.range M, cexp2pi M (((a : ℂ) - a) * k) = 1 := by
      intro k _
      rw [sub_self, zero_mul, cexp2pi_zero]
    rw [Finset.sum_congr rfl this, Finset.sum_const, Finset.card_range, nsmul_eq_mul, mul_one]
  · rw [if_neg hab]
    have hpow : ∀ k ∈ Finset.range M,
        cexp2pi M (((a : ℂ) - b) * k) = cexp2pi M ((a : ℂ) - b) ^ k := by
      intro k _
      rw [cexp2pi_pow]
    rw [Finset.sum_congr rfl hpow, geom_sum_eq (cexp2pi_ne_one M hM a b ha hb hab) M,
      cexp2pi_pow_self M hM a b, sub_self, zero_div]

lemma modsq_eq_mul_conj (z : ℂ) :
    ((z.re ^ 2 + z.im ^ 2 : ℝ) : ℂ) = z * (starRingEnd ℂ) z := by
  rw [Complex.mul_conj, Complex.normSq_apply]
  push_cast
  ring

lemma fftEntry_conj (v : Vec) (k : ℕ) :
    (starRingEnd ℂ) (fftEntry v k) =
      ∑ l ∈ Finset.range v.length, ((v.getD l 0 : ℝ) : ℂ) * cexp2pi v.length ((l : ℂ) * k) := by
  rw [fftEntry, map_sum]
  refine Finset.sum_congr rfl fun l _ => ?_
  rw [map_mul, Complex.conj_ofReal, cexp2pi_conj _ _ (by simp), neg_neg]

/-- Parseval for the (unnormalised) DFT: the power spectrum sums to `M`
times the sum of the squared samples. -/
lemma parseval_sum (v : Vec) :
    ∑ k ∈ Finset.range v.length, fftEntry v k * (starRingEnd ℂ) (fftEntry v k) =
      (v.length : ℂ) * ∑ j ∈ Finset.range v.length, ((v.getD j 0 : ℝ) : ℂ) ^ 2 := by
  rcases Nat.eq_zero_or_pos v.length with hM | hM
  · rw [hM]
    simp
  calc ∑ k ∈ Finset.range v.length, fftEntry v k * (starRingEnd ℂ) (fftEntry v k)
      = ∑ k ∈ Finset.range v.length, ∑ j ∈ Finset.range v.length, ∑ l ∈ Finset.range v.length,
          ((v.getD j 0 : ℝ) : ℂ) * ((v.getD l 0 : ℝ) : ℂ) *
            cexp2pi v.length (((l : ℂ) - j) * k) := by
        refine Finset.sum_congr rfl fun k _ => ?_
        rw [fftEntry_conj, fftEntry, Finset.sum_mul_sum]
        refine Finset.sum_congr rfl fun j _ => Finset.sum_congr rfl fun l _ => ?_
        rw [mul_mul_mul_comm, cexp2pi_add]
        congr 2
        ring
    _ = ∑ j ∈ Finset.range v.length, ∑ l ∈ Finset.range v.length,
          ((v.getD j 0 : ℝ) : ℂ) * ((v.getD l 0 : ℝ) : ℂ) *
            ∑ k ∈ Finset.range v.length, cexp2pi v.length (((l : ℂ) - j) * k) := by
        rw [Finset.sum_comm]
        refine Finset.sum_congr rfl fun j _ => ?_
        rw [Finset.sum_comm]
        refine Finset.sum_congr rfl fun l _ => ?_
        rw [Finset.mul_sum]
    _ = ∑ j ∈ Finset.range v.length, ∑ l ∈ Finset.range v.length,
          (if l = j then ((v.getD j 0 : ℝ) : ℂ) * ((v.getD l 0 : ℝ) : ℂ) * v.length else 0) := by
        refine Finset.sum_congr rfl fun j hj => Finset.sum_congr rfl fun l hl => ?_
        rw [cexp2pi_orth v.length hM l j (List.mem_range.mp hl) (List.mem_range.mp hj),
          mul_ite, mul_zero]
    _ = ∑ j ∈ Finset.range v.length, ((v.getD j 0 : ℝ) : ℂ) * ((v.getD j 0 : ℝ) : ℂ) *
          v.length := by
        refine Finset.sum_congr rfl fun j hj => ?_
        rw [Finset.sum_ite_eq' (Finset.range v.length) j
          (fun l => ((v.getD j 0 : ℝ) : ℂ) * ((v.getD l 0 : ℝ) : ℂ) * v.length), if_pos hj]
    _ = (v.length : ℂ) * ∑ j ∈ Finset.range v.length, ((v.getD j 0 : ℝ) : ℂ) ^ 2 := by
        rw [Finset.mul_sum]
        refine Finset.sum_congr rfl fun j _ => ?_
        ring

lemma listSum_map_eq (f : ℝ → ℝ) : ∀ v : Vec,
    (v.map f).sum = ∑ j ∈ Finset.range v.length, f (v.getD j 0)
  | [] => by simp
  | a :: rest => by
      rw [List.map_cons, List.sum_cons, listSum_map_eq f rest, List.length_cons,
        Finset.sum_range_succ']
      simp only [List.getD_cons_succ, List.getD_cons_zero]
      exact add_comm _ _

/-- Entry 0 of the inverse transform of the power spectrum: the sum of the
squared samples (Parseval at lag 0). -/
lemma ifft_power_zero (v : Vec) (hv : 0 < v.length) :
    (ifft_arma ((fft_arma v).map fun z => ((z.re ^ 2 + z.im ^ 2 : ℝ) : ℂ))).getD 0 0 =
      ((∑ j ∈ Finset.range v.length, (v.getD j 0) ^ 2 : ℝ) : ℂ) := by
  have hfflen : (fft_arma v).length = v.length := by
    rw [fft_arma, List.length_map, List.length_range]
  have hmlen : ((fft_arma v).map fun z => ((z.re ^ 2 + z.im ^ 2 : ℝ) : ℂ)).length = v.length := by
    rw [List.length_map, hfflen]
  rw [ifft_arma, hmlen, getD_range_map _ _ _ _ hv]
  simp only [Nat.cast_zero, zero_mul, cexp2pi_zero, mul_one]
  have hterm : ∀ k ∈ Finset.range v.length,
      ((fft_arma v).map fun z => ((z.re ^ 2 + z.im ^ 2 : ℝ) : ℂ)).getD k 0 =
        fftEntry v k * (starRingEnd ℂ) (fftEntry v k) := by
    intro k hk
    rw [getD_map_of_lt _ _ k (by rw [hfflen]; exact Finset.mem_range.mp hk) 0 0, fft_arma,
      getD_range_map _ _ _ _ (Finset.mem_range.mp hk)]
    exact modsq_eq_mul_conj _
  rw [Finset.sum_congr rfl hterm, parseval_sum v,
    inv_mul_cancel_left₀ (Nat.cast_ne_zero.mpr (Nat.pos_iff_ne_zero.mp hv))]
  push_cast
  ring

/-! ### Claim C8: dft_acf length and lag-0 value -/

/-- C8 (confirmed): for a nonempty real sequence of length `n`, `dft_acf`
returns exactly `n` entries and its lag-0 entry is `sum(x^2) / n`. -/
theorem c8_dft_acf (x : Vec) (h : 0 < x.length) :
    (dft_acf x).length = x.length ∧
    (dft_acf x).getD 0 0 = (x.map fun a => a ^ 2).sum / (x.length : ℝ) := by
  have hxplen : (x ++ List.replicate x.length (0 : ℝ)).length = x.length + x.length := by
    rw [List.length_append, List.length_replicate]
  have hv : 0 < (x ++ List.replicate x.length (0 : ℝ)).length := by
    rw [hxplen]; omega
  have hfflen : (fft_arma (x ++ List.replicate x.length 0)).length = x.length + x.length := by
    rw [fft_arma, List.length_map, List.length_range, hxplen]
  have hifl : (ifft_arma ((fft_arma (x ++ List.replicate x.length 0)).map
      fun z => ((z.re ^ 2 + z.im ^ 2 : ℝ) : ℂ))).length = x.length + x.length := by
    rw [ifft_arma, List.length_map, List.length_range, List.length_map, hfflen]
  constructor
  · simp only [dft_acf]
    rw [List.length_take, List.length_map, hifl]
    omega
  · simp only [dft_acf]
    rw [List.getD_eq_getElem?_getD, List.getElem?_take, if_pos h,
      ← List.getD_eq_getElem?_getD,
      getD_map_of_lt _ _ 0 (by rw [hifl]; omega) 0 0,
      ifft_power_zero _ hv]
    simp only [Complex.ofReal_re]
    congr 1
    rw [listSum_map_eq, hxplen, Finset.sum_range_add]
    have h1 : ∀ j ∈ Finset.range x.length,
        ((x ++ List.replicate x.length (0 : ℝ)).getD j 0) ^ 2 = (x.getD j 0) ^ 2 := by
      intro j hj
      rw [List.getD_eq_getElem?_getD, List.getElem?_append,
        if_pos (Finset.mem_range.mp hj), ← List.getD_eq_getElem?_getD]
    have h2 : ∀ i ∈ Finset.range x.length,
        ((x ++ List.replicate x.length (0 : ℝ)).getD (x.length + i) 0) ^ 2 = 0 := by
      intro i hi
      have hii := Finset.mem_range.mp hi
      rw [List.getD_eq_getElem?_getD, List.getElem?_append, if_neg (by omega)]
      have hsub : x.length + i - x.length = i := by omega
      rw [hsub, List.getElem?_replicate, if_pos hii]
      simp
    rw [Finset.sum_congr rfl h1, Finset.sum_congr rfl h2, Finset.sum_const_zero, add_zero]

/-- C8 witness: the singleton sequence `[1]`. -/
theorem c8_dft_acf_witness :
    (0 < ([(1 : ℝ)] : Vec).length) ∧
    ((dft_acf [(1 : ℝ)]).length = ([(1 : ℝ)] : Vec).length ∧
      (dft_acf [(1 : ℝ)]).getD 0 0 =
        (([(1 : ℝ)] : Vec).map fun a => a ^ 2).sum / (([(1 : ℝ)] : Vec).length : ℝ)) :=
  ⟨by decide, c8_dft_acf [(1 : ℝ)] (by decide)⟩

end GMWM
